import Mathlib

/- Shallow embedding of src/chat.py (My Machine Bot): the tool-invocation
protocol.  Python strings are modelled as Lean strings; the character
classes below are the ASCII fragments of the regex classes used by
extract_tool_calls, so the model covers ASCII text. -/

/-- ASCII word character, the regex class of the marker pattern for the
tool name: letters, digits and underscore. -/
def isWordChar (c : Char) : Bool :=
  c.isAlphanum || c = '_'

/-- ASCII whitespace, the regex whitespace class of the marker pattern. -/
def isSpaceChar (c : Char) : Bool :=
  c = ' ' || c = '\t' || c = '\n' || c = '\x0b' || c = '\x0c' || c = '\r'

/-- Structured data returned by a tool function, as handled by the json
module.  Numbers are carried as their rendered literal text: the payloads
are opaque to the protocol, only their serialization matters here. -/
inductive Json where
  | null : Json
  | bool : Bool → Json
  | num : String → Json
  | str : String → Json
  | arr : List Json → Json
  | obj : List (String × Json) → Json

/-- Lowercase hexadecimal digit, as json.dumps renders escape codes. -/
def hexDigit (n : Nat) : Char :=
  if n < 10 then Char.ofNat (48 + n) else Char.ofNat (87 + n % 16)

/-- Four hexadecimal digits of a code unit. -/
def hex4 (n : Nat) : String :=
  String.mk [hexDigit (n / 4096 % 16), hexDigit (n / 256 % 16),
    hexDigit (n / 16 % 16), hexDigit (n % 16)]

/-- One character of a JSON string literal under json.dumps defaults
(ensure ASCII): printable ASCII other than quote and backslash is kept,
everything else is escaped. -/
def escapeChar (c : Char) : String :=
  if c = '"' then "\\\""
  else if c = '\\' then "\\\\"
  else if c = '\n' then "\\n"
  else if c = '\t' then "\\t"
  else if c = '\r' then "\\r"
  else if c = '\x08' then "\\b"
  else if c = '\x0c' then "\\f"
  else if 32 ≤ c.toNat && c.toNat ≤ 126 then String.singleton c
  else if c.toNat < 65536 then "\\u" ++ hex4 c.toNat
  else
    "\\u" ++ hex4 (55296 + (c.toNat - 65536) / 1024) ++
      "\\u" ++ hex4 (56320 + (c.toNat - 65536) % 1024)

/-- A JSON string literal: quotes around the escaped characters. -/
def encodeJsonString (s : String) : String :=
  "\"" ++ String.join (s.data.map escapeChar) ++ "\""

/-- Indentation prefix at nesting level lvl for indent width 2. -/
def indentOf (lvl : Nat) : String :=
  String.mk (List.replicate (2 * lvl) ' ')

mutual

/-- json.dumps rendering of a value at nesting level lvl with indent=2,
matching the call json.dumps(result, indent=2) in execute_tool. -/
def dumpsVal : Nat → Json → String
  | _, .null => "null"
  | _, .bool true => "true"
  | _, .bool false => "false"
  | _, .num s => s
  | _, .str s => encodeJsonString s
  | _, .arr [] => "[]"
  | lvl, .arr (x :: xs) =>
      "[\n" ++ String.intercalate ",\n" (dumpsItems (lvl + 1) (x :: xs)) ++
        "\n" ++ indentOf lvl ++ "]"
  | _, .obj [] => "\x7b\x7d"
  | lvl, .obj (f :: fs) =>
      "\x7b\n" ++ String.intercalate ",\n" (dumpsFields (lvl + 1) (f :: fs)) ++
        "\n" ++ indentOf lvl ++ "\x7d"

/-- Array items, one rendered line each. -/
def dumpsItems : Nat → List Json → List String
  | _, [] => []
  | lvl, x :: xs => (indentOf lvl ++ dumpsVal lvl x) :: dumpsItems lvl xs

/-- Object fields, one rendered line each. -/
def dumpsFields : Nat → List (String × Json) → List String
  | _, [] => []
  | lvl, (k, v) :: fs =>
      (indentOf lvl ++ encodeJsonString k ++ ": " ++ dumpsVal lvl v) ::
        dumpsFields lvl fs

end

/-- Top level json.dumps with indent=2. -/
def Json.dumps (v : Json) : String :=
  dumpsVal 0 v

/-- One entry of the TOOLS registry of system_tools.py: the zero-argument
tool callable (which either returns structured data or raises with a
message) and its description. -/
structure ToolInfo where
  fn : Unit → Except String Json
  description : String

/-- The TOOLS mapping, in insertion order; tool functions are external
collaborators, so the registry is a parameter of the protocol model. -/
abbrev Registry := List (String × ToolInfo)

/-- format_tool_descriptions of chat.py: one line per registry entry. -/
def format_tool_descriptions (tools : Registry) : String :=
  String.intercalate "\n" (tools.map (fun p => "- " ++ p.1 ++ ": " ++ p.2.description))

/-- Recognize the literal header of the marker pattern at the head of the
text: the opening bracket, the literal word TOOL and the colon. -/
def stripToolHead : List Char → Option (List Char)
  | c1 :: c2 :: c3 :: c4 :: c5 :: c6 :: rest =>
      if c1 = '[' ∧ c2 = 'T' ∧ c3 = 'O' ∧ c4 = 'O' ∧ c5 = 'L' ∧ c6 = ':' then
        some rest
      else none
  | _ => none

/-- Attempt the regex of extract_tool_calls at the head of the text: after
the literal header, greedily skip whitespace, read one or more word
characters, and require the closing bracket.  The character classes being
disjoint, the greedy reading is exactly the regex engine behaviour.
Returns the captured name and the remaining text. -/
def matchMarker (l : List Char) : Option (List Char × List Char) :=
  match stripToolHead l with
  | none => none
  | some rest =>
      let r1 := rest.dropWhile isSpaceChar
      let name := r1.takeWhile isWordChar
      let r2 := r1.dropWhile isWordChar
      if name ≠ [] ∧ r2.head? = some ']' then some (name, r2.tail) else none

/-- The scan loop of re.findall for this pattern, driven by explicit fuel:
at each position try the match; on success, emit the captured name and
continue after the match; on failure, advance one character.  Every step
consumes at least one character, so fuel equal to the text length covers
the whole scan. -/
def findallFuel : Nat → List Char → List (List Char)
  | 0, _ => []
  | _ + 1, [] => []
  | fuel + 1, c :: cs =>
      match matchMarker (c :: cs) with
      | some (name, rest) => name :: findallFuel fuel rest
      | none => findallFuel fuel cs

/-- The scan of the whole text. -/
def findallAux (l : List Char) : List (List Char) :=
  findallFuel l.length l

/-- extract_tool_calls of chat.py: re.findall of the marker pattern over
the response text, returning the captured tool names in match order. -/
def extract_tool_calls (response : String) : List String :=
  (findallAux response.data).map String.mk

/-- execute_tool of chat.py: look the name up in the registry; unknown
names give the unknown-tool text, a raising call gives the formatted
error text, success gives the json.dumps serialization.  The model is a
total function: no outcome is a raised exception. -/
def execute_tool (tools : Registry) (tool_name : String) : String :=
  match tools.find? (fun p => p.1 == tool_name) with
  | some p =>
      match p.2.fn () with
      | .ok result => Json.dumps result
      | .error e => "Error executing " ++ tool_name ++ ": " ++ e
  | none => "Unknown tool: " ++ tool_name

/-- The model name constant of chat.py. -/
def MODEL : String := "llama3.2"

/-- SYSTEM_PROMPT of chat.py with its placeholder interpolated, as done by
SYSTEM_PROMPT.format(tools=...) at each backend call. -/
def SYSTEM_PROMPT (tools : String) : String :=
  "You are a helpful assistant that runs locally on the user\x27s machine. \n" ++
  "You have access to tools that can retrieve information about the system you\x27re running on.\n" ++
  "\n" ++
  "Available tools:\n" ++
  tools ++ "\n" ++
  "\n" ++
  "When the user asks about system information, use the appropriate tool by responding with:\n" ++
  "[TOOL: tool_name]\n" ++
  "\n" ++
  "For example:\n" ++
  "- If asked about CPU usage, respond with [TOOL: get_cpu_info]\n" ++
  "- If asked about memory/RAM, respond with [TOOL: get_memory_info]\n" ++
  "- If asked about disk space, respond with [TOOL: get_disk_info]\n" ++
  "- If asked about network, respond with [TOOL: get_network_info]\n" ++
  "- If asked about running processes, respond with [TOOL: get_process_info]\n" ++
  "- If asked about battery, respond with [TOOL: get_battery_info]\n" ++
  "- If asked about uptime or boot time, respond with [TOOL: get_uptime]\n" ++
  "- If asked about general system info (OS, hostname), respond with [TOOL: get_system_info]\n" ++
  "\n" ++
  "After receiving tool results, explain them to the user in a friendly, clear way.\n" ++
  "You can use multiple tools if needed to answer complex questions.\n"

/-- One message of the conversation, the role and content dict of the
source. -/
structure Turn where
  role : String
  content : String
deriving DecidableEq, Repr

/-- One request to the ollama backend: the model name and the messages
list sent. -/
structure BackendCall where
  model : String
  messages : List Turn
deriving DecidableEq, Repr

/-- The system turn, rendered freshly from the registry for each backend
call. -/
def systemTurn (tools : Registry) : Turn :=
  ⟨"system", SYSTEM_PROMPT (format_tool_descriptions tools)⟩

/-- chat of chat.py.  The ollama backend is an external collaborator,
modelled as a function from the sent messages to the reply content; the
mutation of the history list is modelled by returning the new history.
The result also carries the list of backend calls made, in order, so that
call-counting properties can be stated. -/
def chat (tools : Registry) (backend : List Turn → String) (user_message : String)
    (history : List Turn) : List Turn × String × List BackendCall :=
  let history1 := history ++ [⟨"user", user_message⟩]
  let msgs1 := systemTurn tools :: history1
  let assistant_message := backend msgs1
  let tool_calls := extract_tool_calls assistant_message
  if tool_calls.isEmpty then
    (history1 ++ [⟨"assistant", assistant_message⟩], assistant_message,
      [⟨MODEL, msgs1⟩])
  else
    let tool_results := tool_calls.map (fun tool_name =>
      "Results from " ++ tool_name ++ ":\n" ++ execute_tool tools tool_name)
    let tool_context := String.intercalate "\n\n" tool_results
    let history2 := history1 ++ [⟨"assistant", assistant_message⟩,
      ⟨"user", "Here are the tool results:\n\n" ++ tool_context ++
        "\n\nPlease explain these results to me in a friendly, easy-to-understand way."⟩]
    let msgs2 := systemTurn tools :: history2
    let final_message := backend msgs2
    (history2 ++ [⟨"assistant", final_message⟩], final_message,
      [⟨MODEL, msgs1⟩, ⟨MODEL, msgs2⟩])

/-- The marker grammar as the spec states it: opening tag token, the
literal word TOOL, a colon, optional whitespace, an identifier of word
characters, and the closing tag token. -/
def markerChars (w n : List Char) : List Char :=
  '[' :: 'T' :: 'O' :: 'O' :: 'L' :: ':' :: (w ++ n ++ [']'])

/-- A text contains a well-formed marker with the given name when it
splits around the marker grammar. -/
def hasMarker (l : List Char) (n : List Char) : Prop :=
  ∃ pre w post, (∀ c ∈ w, isSpaceChar c = true) ∧ n ≠ [] ∧
    (∀ c ∈ n, isWordChar c = true) ∧ l = pre ++ markerChars w n ++ post

/-- The content of the synthetic user turn that chat builds from the
extracted tool names: the per-tool result strings joined in extraction
order, wrapped in the fixed instruction text. -/
def toolResultsTurn (tools : Registry) (names : List String) : String :=
  "Here are the tool results:\n\n" ++
    String.intercalate "\n\n" (names.map (fun tool_name =>
      "Results from " ++ tool_name ++ ":\n" ++ execute_tool tools tool_name)) ++
    "\n\nPlease explain these results to me in a friendly, easy-to-understand way."

/-- A tool whose call raises with a fixed message, used in witnesses. -/
def wInfo : ToolInfo :=
  ⟨fun _ => Except.error "boom", "demo tool"⟩

/-- A tool whose call succeeds with a fixed payload, used in witnesses. -/
def wInfoOk : ToolInfo :=
  ⟨fun _ => Except.ok (Json.num "7"), "ok tool"⟩

/-- A registry with a single tool whose call raises, used to witness the
protocol claims on concrete data. -/
def wReg : Registry :=
  [("t1", wInfo)]

/-- A registry with a single succeeding tool, used in witnesses. -/
def wRegOk : Registry :=
  [("t2", wInfoOk)]

/-- A backend that requests the tool on the first call of a turn and
answers plainly on the second, used in witnesses. -/
def wBackend : List Turn → String :=
  fun msgs => if msgs.length ≤ 2 then "[TOOL: t1]" else "done"

/-- A backend that never requests a tool, used in witnesses. -/
def wBackendPlain : List Turn → String :=
  fun _ => "hello there"

/-- Dropping a matched block never lengthens a list. -/
theorem dropWhile_len_le (p : Char → Bool) (l : List Char) :
    (l.dropWhile p).length ≤ l.length := by
  induction l with
  | nil => simp
  | cons a t ih =>
      by_cases h : p a
      · rw [List.dropWhile_cons_of_pos h]; simp; omega
      · rw [List.dropWhile_cons_of_neg h]

/-- A successful header match exposes the six literal characters. -/
theorem stripToolHead_some {l r : List Char} (h : stripToolHead l = some r) :
    l = '[' :: 'T' :: 'O' :: 'O' :: 'L' :: ':' :: r := by
  unfold stripToolHead at h
  split at h
  · rename_i c1 c2 c3 c4 c5 c6 rest
    split at h
    · rename_i hc
      obtain ⟨e1, e2, e3, e4, e5, e6⟩ := hc
      simp only [Option.some.injEq] at h
      subst e1; subst e2; subst e3; subst e4; subst e5; subst e6
      rw [h]
    · exact absurd h (by simp)
  · exact absurd h (by simp)

/-- A successful match exposes the full marker shape at the head of the
text: spaces, a nonempty all-word-character name, the closing bracket,
then the remainder. -/
theorem matchMarker_some {l n rest : List Char}
    (h : matchMarker l = some (n, rest)) :
    ∃ w, (∀ c ∈ w, isSpaceChar c = true) ∧ n ≠ [] ∧
      (∀ c ∈ n, isWordChar c = true) ∧ l = markerChars w n ++ rest := by
  unfold matchMarker at h
  cases hs : stripToolHead l with
  | none => rw [hs] at h; exact absurd h (by simp)
  | some r0 =>
    rw [hs] at h
    dsimp only at h
    split at h
    · rename_i hc
      obtain ⟨hne, hhd⟩ := hc
      simp only [Option.some.injEq, Prod.mk.injEq] at h
      obtain ⟨hn, hrest⟩ := h
      refine ⟨r0.takeWhile isSpaceChar, ?_, ?_, ?_, ?_⟩
      · intro c hcmem; exact List.mem_takeWhile_imp hcmem
      · rw [← hn]; exact hne
      · intro c hcmem; rw [← hn] at hcmem; exact List.mem_takeWhile_imp hcmem
      · have hr2 : (r0.dropWhile isSpaceChar).dropWhile isWordChar = ']' :: rest := by
          cases hr2e : (r0.dropWhile isSpaceChar).dropWhile isWordChar with
          | nil => rw [hr2e] at hhd; exact absurd hhd (by simp)
          | cons b bs =>
            rw [hr2e] at hhd hrest
            simp only [List.head?_cons, Option.some.injEq] at hhd
            simp only [List.tail_cons] at hrest
            rw [hhd, hrest]
        have hr1 : r0.dropWhile isSpaceChar = n ++ (']' :: rest) := by
          conv_lhs => rw [← List.takeWhile_append_dropWhile (p := isWordChar)
            (l := r0.dropWhile isSpaceChar)]
          rw [hn, hr2]
        have hr0 : r0 = r0.takeWhile isSpaceChar ++ (n ++ (']' :: rest)) := by
          conv_lhs => rw [← List.takeWhile_append_dropWhile (p := isSpaceChar) (l := r0)]
          rw [hr1]
        conv_lhs => rw [stripToolHead_some hs, hr0]
        rw [markerChars]
        simp
    · exact absurd h (by simp)

/-- The matched remainder is strictly shorter than the input. -/
theorem matchMarker_lt {l : List Char} {n rest : List Char}
    (h : matchMarker l = some (n, rest)) : rest.length < l.length := by
  obtain ⟨w, _, _, _, hl⟩ := matchMarker_some h
  rw [hl, markerChars]
  simp
  omega


/-- Whitespace characters are not word characters: the two regex classes
are disjoint, so the greedy reading in matchMarker is canonical. -/
theorem space_not_word {c : Char} (h : isSpaceChar c = true) : isWordChar c = false := by
  simp only [isSpaceChar, Bool.or_eq_true, decide_eq_true_eq] at h
  rcases h with ((((h | h) | h) | h) | h) | h <;> subst h <;> rfl

/-- A word character is not the closing bracket. -/
theorem word_ne_rbracket {c : Char} (h : isWordChar c = true) : c ≠ ']' := by
  intro he; subst he; exact absurd h (by decide)

/-- A word character is not the opening bracket. -/
theorem word_ne_lbracket {c : Char} (h : isWordChar c = true) : c ≠ '[' := by
  intro he; subst he; exact absurd h (by decide)

/-- A whitespace character is not the opening bracket. -/
theorem space_ne_lbracket {c : Char} (h : isSpaceChar c = true) : c ≠ '[' := by
  intro he; subst he; exact absurd h (by decide)

/-- dropWhile skips a block whose characters all satisfy the test. -/
theorem dropWhile_append_all {p : Char → Bool} {w : List Char} (m : List Char)
    (hw : ∀ c ∈ w, p c = true) : (w ++ m).dropWhile p = m.dropWhile p := by
  induction w with
  | nil => rfl
  | cons a t ih =>
      rw [List.cons_append, List.dropWhile_cons_of_pos (hw a (by simp))]
      exact ih (fun c hc => hw c (by simp [hc]))

/-- takeWhile and dropWhile split a satisfying block followed by a
non-satisfying character exactly at the block boundary. -/
theorem takeWhile_append_block {p : Char → Bool} {n : List Char} {b : Char} (m : List Char)
    (hn : ∀ c ∈ n, p c = true) (hb : p b = false) :
    (n ++ b :: m).takeWhile p = n ∧ (n ++ b :: m).dropWhile p = b :: m := by
  induction n with
  | nil =>
      refine ⟨?_, ?_⟩
      · rw [List.nil_append, List.takeWhile_cons_of_neg (by simp [hb])]
      · rw [List.nil_append, List.dropWhile_cons_of_neg (by simp [hb])]
  | cons a t ih =>
      have ha : p a = true := hn a (by simp)
      have iht := ih (fun c hc => hn c (by simp [hc]))
      refine ⟨?_, ?_⟩
      · rw [List.cons_append, List.takeWhile_cons_of_pos ha, iht.1]
      · rw [List.cons_append, List.dropWhile_cons_of_pos ha]
        exact iht.2

/-- The regex matches at the head of a well-formed marker, capturing its
name and consuming exactly the marker. -/
theorem matchMarker_marker {w n : List Char} (post : List Char)
    (hw : ∀ c ∈ w, isSpaceChar c = true) (hn0 : n ≠ [])
    (hn : ∀ c ∈ n, isWordChar c = true) :
    matchMarker (markerChars w n ++ post) = some (n, post) := by
  have hhead : stripToolHead (markerChars w n ++ post) =
      some ((w ++ n ++ [']']) ++ post) := by
    rw [markerChars]; simp [stripToolHead]
  unfold matchMarker
  rw [hhead]
  dsimp only
  have hr : (w ++ n ++ [']']) ++ post = w ++ (n ++ ']' :: post) := by simp
  rw [hr, dropWhile_append_all (n ++ ']' :: post) hw]
  obtain ⟨nh, nt, rfl⟩ : ∃ nh nt, n = nh :: nt := by
    cases n with
    | nil => exact absurd rfl hn0
    | cons a b => exact ⟨a, b, rfl⟩
  have hnh : isSpaceChar nh = false := by
    cases hsp : isSpaceChar nh
    · rfl
    · have := space_not_word hsp
      rw [hn nh (by simp)] at this
      exact absurd this (by simp)
  rw [List.cons_append, List.dropWhile_cons_of_neg (by simp [hnh]), ← List.cons_append]
  have hblk := takeWhile_append_block (p := isWordChar) (n := nh :: nt) (b := ']')
    post hn (by decide)
  rw [hblk.1, hblk.2]
  simp

/-- The fuel argument is irrelevant once it covers the text length. -/
theorem findallFuel_adequate :
    ∀ (f1 f2 : Nat) (l : List Char), l.length ≤ f1 → l.length ≤ f2 →
      findallFuel f1 l = findallFuel f2 l := by
  intro f1
  induction f1 with
  | zero =>
      intro f2 l h1 h2
      have : l = [] := List.length_eq_zero.mp (Nat.le_zero.mp h1)
      subst this
      cases f2 with
      | zero => rfl
      | succ f2 => rfl
  | succ f1 ih =>
      intro f2 l h1 h2
      cases l with
      | nil =>
          cases f2 with
          | zero => rfl
          | succ f2 => rfl
      | cons c cs =>
          cases f2 with
          | zero => simp at h2
          | succ f2 =>
              simp only [findallFuel]
              cases hm : matchMarker (c :: cs) with
              | some pr =>
                  obtain ⟨name, rest⟩ := pr
                  have hlt := matchMarker_lt hm
                  simp only [List.length_cons] at hlt h1 h2
                  dsimp only
                  rw [ih f2 rest (by omega) (by omega)]
              | none =>
                  simp only [List.length_cons] at h1 h2
                  dsimp only
                  rw [ih f2 cs (by omega) (by omega)]

/-- Unfolding the scan on a successful match at the current position. -/
theorem findallAux_cons_some {c : Char} {cs name rest : List Char}
    (hm : matchMarker (c :: cs) = some (name, rest)) :
    findallAux (c :: cs) = name :: findallAux rest := by
  unfold findallAux
  simp only [List.length_cons, findallFuel]
  rw [hm]
  dsimp only
  have hlt := matchMarker_lt hm
  simp only [List.length_cons] at hlt
  rw [findallFuel_adequate cs.length rest.length rest (by omega) le_rfl]

/-- Unfolding the scan on a failed match at the current position. -/
theorem findallAux_cons_none {c : Char} {cs : List Char}
    (hm : matchMarker (c :: cs) = none) :
    findallAux (c :: cs) = findallAux cs := by
  unfold findallAux
  simp only [List.length_cons, findallFuel]
  rw [hm]

/-- Soundness of the scan, by fuel on the text length: every extracted
name arises from a well-formed marker occurrence in the text. -/
theorem findallAux_sound_fuel (L : Nat) :
    ∀ (l : List Char), l.length ≤ L → ∀ n ∈ findallAux l, hasMarker l n := by
  induction L with
  | zero =>
      intro l hl n hn
      have : l = [] := List.length_eq_zero.mp (Nat.le_zero.mp hl)
      subst this
      simp [findallAux, findallFuel] at hn
  | succ L ih =>
      intro l hl n hn
      cases l with
      | nil => simp [findallAux, findallFuel] at hn
      | cons c cs =>
          cases hm : matchMarker (c :: cs) with
          | some pr =>
              obtain ⟨name, rest⟩ := pr
              rw [findallAux_cons_some hm] at hn
              obtain ⟨w0, hw0, hne0, hword0, hl0⟩ := matchMarker_some hm
              rcases List.mem_cons.mp hn with rfl | hn2
              · exact ⟨[], w0, rest, hw0, hne0, hword0, by rw [hl0]; simp⟩
              · have hrl : rest.length ≤ L := by
                  have := matchMarker_lt hm
                  simp only [List.length_cons] at this hl
                  omega
                obtain ⟨pre, w, post, hw, hne, hword, hrest⟩ := ih rest hrl n hn2
                refine ⟨markerChars w0 name ++ pre, w, post, hw, hne, hword, ?_⟩
                rw [hl0, hrest]
                simp
          | none =>
              rw [findallAux_cons_none hm] at hn
              have hcl : cs.length ≤ L := by
                simp only [List.length_cons] at hl
                omega
              obtain ⟨pre, w, post, hw, hne, hword, hrest⟩ := ih cs hcl n hn
              exact ⟨c :: pre, w, post, hw, hne, hword, by rw [hrest]; simp⟩

/-- Soundness of the scan. -/
theorem findallAux_sound {l n : List Char} (h : n ∈ findallAux l) :
    hasMarker l n :=
  findallAux_sound_fuel l.length l le_rfl n h

/-- Two prefixes of the same list are comparable. -/
theorem pref_of_pref_le {a b l t s : List Char} (ha : a ++ t = l) (hb : b ++ s = l)
    (hlen : a.length ≤ b.length) : ∃ r, a ++ r = b := by
  exact List.prefix_of_prefix_length_le ⟨t, ha⟩ ⟨s, hb⟩ hlen

/-- No character strictly inside a marker is an opening bracket, so two
marker occurrences can never overlap. -/
theorem marker_tail_no_lbracket {w n : List Char}
    (hw : ∀ c ∈ w, isSpaceChar c = true) (hn : ∀ c ∈ n, isWordChar c = true) :
    ∀ c ∈ 'T' :: 'O' :: 'O' :: 'L' :: ':' :: (w ++ n ++ [']']), c ≠ '[' := by
  intro c hc
  simp only [List.mem_cons, List.mem_append, List.not_mem_nil, or_false] at hc
  rcases hc with rfl | rfl | rfl | rfl | rfl | (hc | hc) | rfl
  · decide
  · decide
  · decide
  · decide
  · decide
  · exact space_ne_lbracket (hw c hc)
  · exact word_ne_lbracket (hn c hc)
  · decide

/-- Completeness of the scan, by fuel on the text length: every
well-formed marker occurrence contributes its name to the result. -/
theorem findallAux_complete_fuel (L : Nat) :
    ∀ (l : List Char), l.length ≤ L → ∀ n, hasMarker l n → n ∈ findallAux l := by
  induction L with
  | zero =>
      intro l hl n hmk
      obtain ⟨pre, w, post, hw, hn0, hn, hsplit⟩ := hmk
      exfalso
      subst hsplit
      simp [markerChars] at hl
  | succ L ih =>
      intro l hl n hmk
      obtain ⟨pre, w, post, hw, hn0, hn, hsplit⟩ := hmk
      subst hsplit
      cases hpre : pre with
      | nil =>
          have hm : matchMarker ([] ++ markerChars w n ++ post) = some (n, post) := by
            rw [List.nil_append]
            exact matchMarker_marker post hw hn0 hn
          rw [List.nil_append] at hm ⊢
          have hcons : markerChars w n ++ post =
              '[' :: ('T' :: 'O' :: 'O' :: 'L' :: ':' :: (w ++ n ++ [']']) ++ post) := by
            rw [markerChars]; simp
          rw [hcons] at hm ⊢
          rw [findallAux_cons_some hm]
          exact List.mem_cons_self n _
      | cons p ps =>
          subst hpre
          have hlen : (p :: ps ++ markerChars w n ++ post).length ≤ L + 1 := hl
          cases hm : matchMarker (p :: (ps ++ markerChars w n ++ post)) with
          | none =>
              have heq : p :: ps ++ markerChars w n ++ post =
                  p :: (ps ++ markerChars w n ++ post) := by simp
              rw [heq] at hl ⊢
              rw [findallAux_cons_none hm]
              have hcl : (ps ++ markerChars w n ++ post).length ≤ L := by
                simp only [List.length_cons] at hl
                omega
              exact ih _ hcl n ⟨ps, w, post, hw, hn0, hn, rfl⟩
          | some pr =>
              obtain ⟨n0, rest⟩ := pr
              have heq : p :: ps ++ markerChars w n ++ post =
                  p :: (ps ++ markerChars w n ++ post) := by simp
              rw [heq] at hl ⊢
              rw [findallAux_cons_some hm]
              obtain ⟨w0, hw0, hne0, hword0, hl0⟩ := matchMarker_some hm
              have hMle : (markerChars w0 n0).length ≤ (p :: ps).length := by
                by_contra hgt
                push_neg at hgt
                have hBpref : ((p :: ps) ++ ['[']) ++
                    (('T' :: 'O' :: 'O' :: 'L' :: ':' :: (w ++ n ++ [']'])) ++ post) =
                    p :: (ps ++ markerChars w n ++ post) := by
                  rw [markerChars]; simp
                have hApref : markerChars w0 n0 ++ rest =
                    p :: (ps ++ markerChars w n ++ post) := hl0.symm
                have hlenle : ((p :: ps) ++ ['[']).length ≤ (markerChars w0 n0).length := by
                  simp only [List.length_append, List.length_cons, List.length_nil] at hgt ⊢
                  omega
                obtain ⟨r, hr⟩ := pref_of_pref_le hBpref hApref hlenle
                have hA : markerChars w0 n0 =
                    '[' :: ('T' :: 'O' :: 'O' :: 'L' :: ':' :: (w0 ++ n0 ++ [']'])) := by
                  rw [markerChars]
                simp only [hA, List.cons_append, List.cons.injEq] at hr
                have hmem : '[' ∈ 'T' :: 'O' :: 'O' :: 'L' :: ':' :: (w0 ++ n0 ++ [']']) := by
                  rw [← hr.2]
                  exact List.mem_append_left _ (List.mem_append_right _ (by simp))
                exact marker_tail_no_lbracket hw0 hword0 '[' hmem rfl
              obtain ⟨t, ht⟩ := pref_of_pref_le hl0.symm
                (show (p :: ps) ++ (markerChars w n ++ post) =
                  p :: (ps ++ markerChars w n ++ post) by simp) hMle
              have hrest : rest = t ++ (markerChars w n ++ post) := by
                have h1 : markerChars w0 n0 ++ rest =
                    markerChars w0 n0 ++ (t ++ (markerChars w n ++ post)) := by
                  rw [← List.append_assoc, ht]
                  rw [← hl0]
                  simp
                exact List.append_cancel_left h1
              have hrl : rest.length ≤ L := by
                have hlt := matchMarker_lt hm
                simp only [List.length_cons] at hl hlt
                omega
              have hres := ih rest hrl n ⟨t, w, post, hw, hn0, hn, by rw [hrest]; simp⟩
              exact List.mem_cons_of_mem n0 hres

/-- Completeness of the scan. -/
theorem findallAux_complete {l n : List Char} (h : hasMarker l n) :
    n ∈ findallAux l :=
  findallAux_complete_fuel l.length l le_rfl n h

/-- C1: a user message whose first model reply contains at least one
well-formed tool marker makes exactly two backend calls and appends
exactly four turns to the history, in order: the user message, the first
reply verbatim (markers included), a synthetic user turn holding the
tool-result strings joined in extraction order, and the second reply,
which is also the returned value. -/
theorem chat_with_tool_calls (tools : Registry) (backend : List Turn → String)
    (user_message : String) (history : List Turn)
    (hne : extract_tool_calls (backend (systemTurn tools ::
      (history ++ [Turn.mk "user" user_message]))) ≠ []) :
    ∃ reply1 reply2,
      reply1 = backend (systemTurn tools :: (history ++ [Turn.mk "user" user_message])) ∧
      reply2 = backend (systemTurn tools :: (history ++
        [Turn.mk "user" user_message, Turn.mk "assistant" reply1,
         Turn.mk "user" (toolResultsTurn tools (extract_tool_calls reply1))])) ∧
      chat tools backend user_message history =
        (history ++
          [Turn.mk "user" user_message, Turn.mk "assistant" reply1,
           Turn.mk "user" (toolResultsTurn tools (extract_tool_calls reply1)),
           Turn.mk "assistant" reply2],
         reply2,
         [BackendCall.mk MODEL (systemTurn tools ::
            (history ++ [Turn.mk "user" user_message])),
          BackendCall.mk MODEL (systemTurn tools :: (history ++
            [Turn.mk "user" user_message, Turn.mk "assistant" reply1,
             Turn.mk "user" (toolResultsTurn tools (extract_tool_calls reply1))]))]) := by
  refine ⟨_, _, rfl, rfl, ?_⟩
  unfold chat
  dsimp only
  rw [if_neg (by simp only [List.isEmpty_iff]; exact hne)]
  rw [toolResultsTurn]
  simp

/-- C1 witness: the protocol on a concrete registry, backend and message
with one marker in the first reply. -/
theorem chat_with_tool_calls_witness :
    extract_tool_calls (wBackend (systemTurn wReg ::
      ([] ++ [Turn.mk "user" "hi"]))) ≠ [] ∧
    ∃ reply1 reply2,
      reply1 = wBackend (systemTurn wReg :: ([] ++ [Turn.mk "user" "hi"])) ∧
      reply2 = wBackend (systemTurn wReg :: ([] ++
        [Turn.mk "user" "hi", Turn.mk "assistant" reply1,
         Turn.mk "user" (toolResultsTurn wReg (extract_tool_calls reply1))])) ∧
      chat wReg wBackend "hi" [] =
        ([] ++
          [Turn.mk "user" "hi", Turn.mk "assistant" reply1,
           Turn.mk "user" (toolResultsTurn wReg (extract_tool_calls reply1)),
           Turn.mk "assistant" reply2],
         reply2,
         [BackendCall.mk MODEL (systemTurn wReg :: ([] ++ [Turn.mk "user" "hi"])),
          BackendCall.mk MODEL (systemTurn wReg :: ([] ++
            [Turn.mk "user" "hi", Turn.mk "assistant" reply1,
             Turn.mk "user" (toolResultsTurn wReg (extract_tool_calls reply1))]))]) :=
  ⟨by decide, chat_with_tool_calls wReg wBackend "hi" [] (by decide)⟩

/-- C2: a user message whose first model reply contains no well-formed
tool marker makes exactly one backend call and appends exactly two turns
to the history — the user message and the reply — and the reply is
returned unchanged. -/
theorem chat_no_tool_calls (tools : Registry) (backend : List Turn → String)
    (user_message : String) (history : List Turn)
    (hempty : extract_tool_calls (backend (systemTurn tools ::
      (history ++ [Turn.mk "user" user_message]))) = []) :
    ∃ reply,
      reply = backend (systemTurn tools :: (history ++ [Turn.mk "user" user_message])) ∧
      chat tools backend user_message history =
        (history ++ [Turn.mk "user" user_message, Turn.mk "assistant" reply],
         reply,
         [BackendCall.mk MODEL (systemTurn tools ::
           (history ++ [Turn.mk "user" user_message]))]) := by
  refine ⟨_, rfl, ?_⟩
  unfold chat
  dsimp only
  rw [if_pos (by simp only [List.isEmpty_iff]; exact hempty)]
  simp

/-- C2 witness: the protocol on a concrete registry, backend and message
with no marker in the reply. -/
theorem chat_no_tool_calls_witness :
    extract_tool_calls (wBackendPlain (systemTurn wReg ::
      ([] ++ [Turn.mk "user" "hi"]))) = [] ∧
    ∃ reply,
      reply = wBackendPlain (systemTurn wReg :: ([] ++ [Turn.mk "user" "hi"])) ∧
      chat wReg wBackendPlain "hi" [] =
        ([] ++ [Turn.mk "user" "hi", Turn.mk "assistant" reply],
         reply,
         [BackendCall.mk MODEL (systemTurn wReg ::
           ([] ++ [Turn.mk "user" "hi"]))]) :=
  ⟨by decide, chat_no_tool_calls wReg wBackendPlain "hi" [] (by decide)⟩

/-- C3: for every registered tool name, a raising call is caught and
rendered as the formatted error string containing the name and the error
message, and a successful call is rendered by json.dumps with indent 2;
execute_tool is a total function, so no exception ever reaches the
caller. -/
theorem execute_tool_registered (tools : Registry) (tool_name : String)
    (info : ToolInfo)
    (hfind : tools.find? (fun p => p.1 == tool_name) = some (tool_name, info)) :
    (∀ msg, info.fn () = Except.error msg →
      execute_tool tools tool_name = "Error executing " ++ tool_name ++ ": " ++ msg) ∧
    (∀ result, info.fn () = Except.ok result →
      execute_tool tools tool_name = Json.dumps result) := by
  constructor
  · intro msg hrun
    unfold execute_tool
    rw [hfind]
    dsimp only
    rw [hrun]
  · intro result hrun
    unfold execute_tool
    rw [hfind]
    dsimp only
    rw [hrun]

/-- C3 witness: the registered demo tool raises and its error is rendered
in place; a second registry entry succeeds and is serialized. -/
theorem execute_tool_registered_witness :
    (wReg.find? (fun p => p.1 == "t1") = some ("t1", wInfo) ∧
     execute_tool wReg "t1" = "Error executing " ++ "t1" ++ ": " ++ "boom") ∧
    (wRegOk.find? (fun p => p.1 == "t2") = some ("t2", wInfoOk) ∧
     execute_tool wRegOk "t2" = Json.dumps (Json.num "7")) :=
  ⟨⟨rfl, (execute_tool_registered wReg "t1" wInfo rfl).1 "boom" rfl⟩,
   ⟨rfl, (execute_tool_registered wRegOk "t2" wInfoOk rfl).2 (Json.num "7") rfl⟩⟩

/-- C4: for every name absent from the registry, execute_tool returns the
unknown-tool string, which contains the literal unknown name, and never
raises (it is a total function). -/
theorem execute_tool_unknown (tools : Registry) (tool_name : String)
    (hfind : tools.find? (fun p => p.1 == tool_name) = none) :
    execute_tool tools tool_name = "Unknown tool: " ++ tool_name ∧
    ∃ before after, execute_tool tools tool_name = before ++ tool_name ++ after := by
  have h : execute_tool tools tool_name = "Unknown tool: " ++ tool_name := by
    unfold execute_tool
    rw [hfind]
  exact ⟨h, "Unknown tool: ", "", by rw [h]; simp⟩

/-- C4 witness: a name missing from the concrete registry. -/
theorem execute_tool_unknown_witness :
    wReg.find? (fun p => p.1 == "nope") = none ∧
    (execute_tool wReg "nope" = "Unknown tool: " ++ "nope" ∧
     ∃ before after, execute_tool wReg "nope" = before ++ "nope" ++ after) :=
  ⟨rfl, execute_tool_unknown wReg "nope" rfl⟩

/-- Bridge between string-level extraction and the character-level scan. -/
theorem mem_extract_iff {text name : String} :
    name ∈ extract_tool_calls text ↔ name.data ∈ findallAux text.data := by
  unfold extract_tool_calls
  constructor
  · intro h
    obtain ⟨n, hn, he⟩ := List.mem_map.mp h
    rw [← he]
    exact hn
  · intro h
    have hmk : String.mk name.data = name := by cases name; rfl
    rw [← hmk]
    exact List.mem_map_of_mem _ h

/-- C5: the Scanner recognizes exactly the single marker grammar — a name
is extracted from a text if and only if the text contains a full marker
around it: the opening bracket, the case-sensitive literal TOOL, a colon,
optional whitespace, the nonempty name in word characters, and the
closing bracket.  The final conjunct exhibits the case-sensitivity of the
tag keyword: the lowercase variant is not recognized. -/
theorem extract_tool_calls_iff_marker :
    (∀ (text name : String),
      name ∈ extract_tool_calls text ↔ hasMarker text.data name.data) ∧
    extract_tool_calls "[tool: get_cpu_info]" = [] := by
  constructor
  · intro text name
    rw [mem_extract_iff]
    exact ⟨findallAux_sound, findallAux_complete⟩
  · decide

/-- C6: the documented three-marker text yields exactly the three names,
in left-to-right order of appearance, the duplicate preserved. -/
theorem extract_tool_calls_example :
    extract_tool_calls
      "... [TOOL: get_cpu_info] ... [TOOL: get_memory_info] ... [TOOL: get_cpu_info] ..." =
      ["get_cpu_info", "get_memory_info", "get_cpu_info"] := by
  decide

/-- Markers contain an opening bracket, so a bracket-free text has none. -/
theorem hasMarker_mem_lbracket {l n : List Char} (h : hasMarker l n) : '[' ∈ l := by
  obtain ⟨pre, w, post, _, _, _, hsplit⟩ := h
  subst hsplit
  exact List.mem_append_left _ (List.mem_append_right _ (by rw [markerChars]; simp))

/-- C7: a text containing no well-formed marker yields the empty sequence:
marker-like substrings that do not fully match the grammar are ignored as
ordinary prose, without producing a tool call (and extract_tool_calls is
a total function, so no error is possible). -/
theorem extract_tool_calls_no_marker (text : String)
    (hno : ∀ n : List Char, ¬ hasMarker text.data n) :
    extract_tool_calls text = [] := by
  cases he : extract_tool_calls text with
  | nil => rfl
  | cons x xs =>
      exfalso
      have hx : x ∈ extract_tool_calls text := by rw [he]; simp
      exact hno x.data (findallAux_sound (mem_extract_iff.mp hx))

/-- C7 witness: prose with a marker-like fragment missing its opening
bracket. -/
theorem extract_tool_calls_no_marker_witness :
    (∀ n : List Char, ¬ hasMarker "malformed TOOL: x] here".data n) ∧
    extract_tool_calls "malformed TOOL: x] here" = [] :=
  ⟨fun _ h => absurd (hasMarker_mem_lbracket h) (by decide),
   extract_tool_calls_no_marker _
     (fun _ h => absurd (hasMarker_mem_lbracket h) (by decide))⟩

/-- C9: the Scanner is a pure, deterministic function with no hidden
state: its output depends only on the input text, so equal texts give
equal results and repeating a call changes nothing. -/
theorem extract_tool_calls_deterministic (s t : String) (h : s = t) :
    extract_tool_calls s = extract_tool_calls t ∧
    extract_tool_calls s = extract_tool_calls s :=
  ⟨by rw [h], rfl⟩

/-- C9 witness. -/
theorem extract_tool_calls_deterministic_witness :
    "[TOOL: a]" = "[TOOL: a]" ∧
    (extract_tool_calls "[TOOL: a]" = extract_tool_calls "[TOOL: a]" ∧
     extract_tool_calls "[TOOL: a]" = extract_tool_calls "[TOOL: a]") :=
  ⟨rfl, extract_tool_calls_deterministic _ _ rfl⟩

/-- C10: every extracted name is nonempty and consists only of word
characters; in particular no extracted name contains whitespace, a
bracket or a colon. -/
theorem extract_tool_calls_names_wordlike (text name : String)
    (h : name ∈ extract_tool_calls text) :
    name ≠ "" ∧ ∀ c ∈ name.data, isWordChar c = true ∧ isSpaceChar c = false ∧
      c ≠ '[' ∧ c ≠ ']' ∧ c ≠ ':' := by
  obtain ⟨pre, w, post, hw, hne, hword, hsplit⟩ :=
    findallAux_sound (mem_extract_iff.mp h)
  constructor
  · intro he
    subst he
    exact hne rfl
  · intro c hc
    have hwc := hword c hc
    refine ⟨hwc, ?_, word_ne_lbracket hwc, word_ne_rbracket hwc, ?_⟩
    · cases hspc : isSpaceChar c
      · rfl
      · rw [space_not_word hspc] at hwc
        exact absurd hwc (by simp)
    · intro he
      subst he
      exact absurd hwc (by decide)

/-- C10 witness. -/
theorem extract_tool_calls_names_wordlike_witness :
    "abc" ∈ extract_tool_calls "some [TOOL: abc] text" ∧
    ("abc" ≠ "" ∧ ∀ c ∈ "abc".data, isWordChar c = true ∧ isSpaceChar c = false ∧
      c ≠ '[' ∧ c ≠ ']' ∧ c ≠ ':') :=
  ⟨by decide, extract_tool_calls_names_wordlike "some [TOOL: abc] text" "abc" (by decide)⟩

/-- C8: every backend call of a chat turn sends a freshly rendered system
turn — the SYSTEM_PROMPT template with the registry descriptions
interpolated, one "- name: description" line per entry in insertion
order — followed by the history as stored at that moment; the system turn
is never stored in the history, the initial history is a prefix of the
final one, every call sees an extension of the initial history that is a
prefix of the final one, and every appended turn is a user or assistant
turn (so no stored entry is ever removed or edited). -/
theorem chat_system_turn_and_history (tools : Registry) (backend : List Turn → String)
    (user_message : String) (history : List Turn) :
    (∃ appended, (chat tools backend user_message history).1 = history ++ appended ∧
      ∀ t ∈ appended, t.role = "user" ∨ t.role = "assistant") ∧
    (∀ call ∈ (chat tools backend user_message history).2.2,
      ∃ mid, call.messages =
          Turn.mk "system" (SYSTEM_PROMPT (format_tool_descriptions tools)) :: mid ∧
        (∃ ext, history ++ ext = mid) ∧
        (∃ ext2, mid ++ ext2 = (chat tools backend user_message history).1)) ∧
    format_tool_descriptions tools =
      String.intercalate "\n"
        (tools.map (fun p => "- " ++ p.1 ++ ": " ++ p.2.description)) := by
  by_cases hc : (extract_tool_calls (backend (systemTurn tools ::
      (history ++ [Turn.mk "user" user_message])))).isEmpty
  · have hchat : chat tools backend user_message history =
        (history ++ [Turn.mk "user" user_message,
          Turn.mk "assistant" (backend (systemTurn tools ::
            (history ++ [Turn.mk "user" user_message])))],
         backend (systemTurn tools :: (history ++ [Turn.mk "user" user_message])),
         [BackendCall.mk MODEL (systemTurn tools ::
           (history ++ [Turn.mk "user" user_message]))]) := by
      unfold chat
      dsimp only
      rw [if_pos hc]
      simp
    rw [hchat]
    refine ⟨⟨[Turn.mk "user" user_message,
      Turn.mk "assistant" (backend (systemTurn tools ::
        (history ++ [Turn.mk "user" user_message])))], rfl, by simp⟩, ?_, rfl⟩
    intro call hcall
    simp only [List.mem_singleton] at hcall
    subst hcall
    refine ⟨history ++ [Turn.mk "user" user_message], rfl,
      ⟨[Turn.mk "user" user_message], rfl⟩,
      ⟨[Turn.mk "assistant" (backend (systemTurn tools ::
        (history ++ [Turn.mk "user" user_message])))], by simp⟩⟩
  · have hchat : chat tools backend user_message history =
        (history ++ [Turn.mk "user" user_message,
           Turn.mk "assistant" (backend (systemTurn tools ::
             (history ++ [Turn.mk "user" user_message]))),
           Turn.mk "user" (toolResultsTurn tools (extract_tool_calls
             (backend (systemTurn tools :: (history ++ [Turn.mk "user" user_message]))))),
           Turn.mk "assistant" (backend (systemTurn tools :: (history ++
             [Turn.mk "user" user_message,
              Turn.mk "assistant" (backend (systemTurn tools ::
                (history ++ [Turn.mk "user" user_message]))),
              Turn.mk "user" (toolResultsTurn tools (extract_tool_calls
                (backend (systemTurn tools ::
                  (history ++ [Turn.mk "user" user_message])))))])))],
         backend (systemTurn tools :: (history ++
           [Turn.mk "user" user_message,
            Turn.mk "assistant" (backend (systemTurn tools ::
              (history ++ [Turn.mk "user" user_message]))),
            Turn.mk "user" (toolResultsTurn tools (extract_tool_calls
              (backend (systemTurn tools ::
                (history ++ [Turn.mk "user" user_message])))))])),
         [BackendCall.mk MODEL (systemTurn tools ::
            (history ++ [Turn.mk "user" user_message])),
          BackendCall.mk MODEL (systemTurn tools :: (history ++
            [Turn.mk "user" user_message,
             Turn.mk "assistant" (backend (systemTurn tools ::
               (history ++ [Turn.mk "user" user_message]))),
             Turn.mk "user" (toolResultsTurn tools (extract_tool_calls
               (backend (systemTurn tools ::
                 (history ++ [Turn.mk "user" user_message])))))]))]) := by
      unfold chat
      dsimp only
      rw [if_neg hc]
      rw [toolResultsTurn]
      simp
    rw [hchat]
    refine ⟨⟨_, rfl, by simp⟩, ?_, rfl⟩
    intro call hcall
    simp only [List.mem_cons, List.mem_singleton, List.not_mem_nil, or_false] at hcall
    rcases hcall with rfl | rfl
    · refine ⟨history ++ [Turn.mk "user" user_message], rfl,
        ⟨[Turn.mk "user" user_message], rfl⟩,
        ⟨[Turn.mk "assistant" (backend (systemTurn tools ::
            (history ++ [Turn.mk "user" user_message]))),
          Turn.mk "user" (toolResultsTurn tools (extract_tool_calls
            (backend (systemTurn tools ::
              (history ++ [Turn.mk "user" user_message]))))),
          Turn.mk "assistant" (backend (systemTurn tools :: (history ++
            [Turn.mk "user" user_message,
             Turn.mk "assistant" (backend (systemTurn tools ::
               (history ++ [Turn.mk "user" user_message]))),
             Turn.mk "user" (toolResultsTurn tools (extract_tool_calls
               (backend (systemTurn tools ::
                 (history ++ [Turn.mk "user" user_message])))))])))], by simp⟩⟩
    · refine ⟨history ++
        [Turn.mk "user" user_message,
         Turn.mk "assistant" (backend (systemTurn tools ::
           (history ++ [Turn.mk "user" user_message]))),
         Turn.mk "user" (toolResultsTurn tools (extract_tool_calls
           (backend (systemTurn tools ::
             (history ++ [Turn.mk "user" user_message])))))], rfl,
        ⟨[Turn.mk "user" user_message,
          Turn.mk "assistant" (backend (systemTurn tools ::
            (history ++ [Turn.mk "user" user_message]))),
          Turn.mk "user" (toolResultsTurn tools (extract_tool_calls
            (backend (systemTurn tools ::
              (history ++ [Turn.mk "user" user_message])))))], rfl⟩,
        ⟨[Turn.mk "assistant" (backend (systemTurn tools :: (history ++
          [Turn.mk "user" user_message,
           Turn.mk "assistant" (backend (systemTurn tools ::
             (history ++ [Turn.mk "user" user_message]))),
           Turn.mk "user" (toolResultsTurn tools (extract_tool_calls
             (backend (systemTurn tools ::
               (history ++ [Turn.mk "user" user_message])))))])))], by simp⟩⟩
